import Mathlib

/-!
Shallow embedding of the beam-search caption generator of
`src/evaluation.py` (`generate_caption`).

The neural collaborators are abstracted exactly at the interface the code
uses them through: a model is a function `M : List Nat → List ℚ` sending a
token prefix to the softmax distribution over the vocabulary that
`F.softmax(model.fc(model.decoder(tokens, encoder_output, mask)))[:, -1, :]`
produces (the encoder output and the mask are deterministic functions of
the image and the prefix, so for a fixed image the whole pipeline is one
function of the prefix).  The tokenizer's `decode` is an abstract
`List Nat → String`.  Scores are rationals, standing for the real-valued
probabilities; token ids are naturals.
-/

/-- A beam of the search: a token sequence paired with its accumulated
score.  Mirrors the Python pair `(beam[0], beam[1])`. -/
structure Beam where
  tokens : List Nat
  score : ℚ
deriving DecidableEq

/-- Stable descending insertion: `x` is placed before the first element
whose score is less than or equal to `x`'s key.  Inserting the
originally-earlier element into the sorted tail in this way reproduces the
order of Python's stable `sorted(..., key=..., reverse=True)`. -/
def insertDesc {α : Type} (f : α → ℚ) (x : α) : List α → List α
  | [] => [x]
  | y :: ys => if f y ≤ f x then x :: y :: ys else y :: insertDesc f x ys

/-- Stable sort by key, descending — the embedding of Python's
`sorted(l, key=f, reverse=True)` (equal keys keep their original relative
order). -/
def sortDescBy {α : Type} (f : α → ℚ) : List α → List α
  | [] => []
  | x :: xs => insertDesc f x (sortDescBy f xs)

/-- `pred.topk(k)`: the `k` largest entries of the distribution, as
(index, value) pairs in descending value order, lower index first on
ties. -/
def topk (p : List ℚ) (k : Nat) : List (Nat × ℚ) :=
  (sortDescBy Prod.snd p.enum).take k

/-- `list.remove(x)` of Python: drop the first element equal to `x`. -/
def pyRemove (x : Beam) : List Beam → List Beam
  | [] => []
  | y :: ys => if y = x then ys else y :: pyRemove x ys

/-- The harvest loop of lines 62–66 of `evaluation.py`:

    for beam in beams:
        if beam[0][-1] == tokenizer.eos_token_id:
            completed.append(beam)
            beams.remove(beam)
            beam_size -= 1

Python's `for` iterates by an internal index over the list being mutated,
so removing the current element shifts the rest left and the next element
is skipped.  The index-and-list state is modelled directly; `fuel` is an
upper bound on the number of iterations (the index grows by one per
iteration and the list never grows, so `beams.length` iterations always
suffice), letting the function compute by structural recursion. -/
def harvestAux (eos : Nat) : Nat → Nat → List Beam → List Beam → Int →
    List Beam × List Beam × Int
  | 0, _, beams, completed, beam_size => (beams, completed, beam_size)
  | fuel + 1, i, beams, completed, beam_size =>
    if h : i < beams.length then
      let b := beams.get ⟨i, h⟩
      if b.tokens.getLast? = some eos then
        harvestAux eos fuel (i + 1) (pyRemove b beams) (completed ++ [b])
          (beam_size - 1)
      else
        harvestAux eos fuel (i + 1) beams completed beam_size
    else (beams, completed, beam_size)

/-- The complete-beam harvest pass over the active list, as the source
performs it (in-place removal during iteration included). -/
def harvestLoop (eos : Nat) (beams completed : List Beam) (beam_size : Int) :
    List Beam × List Beam × Int :=
  harvestAux eos beams.length 0 beams completed beam_size

/-- One beam's expansion (lines 42–55): take the top `k` tokens of the
next-token distribution for the beam's prefix and build one child per
token, appending the token and adding its probability to the score. -/
def expandBeam (M : List Nat → List ℚ) (k : Nat) (b : Beam) : List Beam :=
  (topk (M b.tokens) k).map (fun iv => ⟨b.tokens ++ [iv.1], b.score + iv.2⟩)

/-- `new_beams` of one loop iteration: every active beam contributes its
children, in list order. -/
def candidates (M : List Nat → List ℚ) (k : Nat) (beams : List Beam) :
    List Beam :=
  beams.flatMap (expandBeam M k)

/-- Line 60: `sorted(beams, key=lambda x: x[1], reverse=True)[:beam_size]`. -/
def pruneActive (k : Nat) (cands : List Beam) : List Beam :=
  (sortDescBy Beam.score cands).take k

/-- The loop-carried state: the active beams, the completed beams, and the
mutable `beam_size` (an `Int`, as in Python). -/
structure StepState where
  beams : List Beam
  completed : List Beam
  beam_size : Int
deriving DecidableEq

/-- One iteration of the decoding loop (lines 39–66): expand every active
beam with the top-`beam_size` tokens (the *current*, possibly shrunk,
`beam_size`), sort all candidates by score descending (stable) and keep
the first `beam_size`, then run the harvest pass. -/
def runStep (M : List Nat → List ℚ) (eos : Nat) (s : StepState) : StepState :=
  let pruned := pruneActive s.beam_size.toNat
    (candidates M s.beam_size.toNat s.beams)
  let r := harvestLoop eos pruned s.completed s.beam_size
  ⟨r.1, r.2.1, r.2.2⟩

/-- The decoding loop `for _ in range(max_seq_len): ...` with the bottom
check `if beam_size == 0: break`.  Returns the final state together with
the number of iterations actually executed. -/
def runLoop (M : List Nat → List ℚ) (eos : Nat) :
    Nat → StepState → StepState × Nat
  | 0, s => (s, 0)
  | n + 1, s =>
    let s1 := runStep M eos s
    if s1.beam_size = 0 then (s1, 1)
    else
      let r := runLoop M eos n s1
      (r.1, r.2 + 1)

/-- The state before the loop (lines 35–36): one beam holding only the
begin-of-sequence token with score 0, no completions, full beam width. -/
def initState (bos : Nat) (beam_size : Int) : StepState :=
  ⟨[⟨[bos], 0⟩], [], beam_size⟩

/-- The failure modes the call can surface.  `indexError` is Python's
`IndexError` from `completed[0]` on an empty list; `configError` stands
for the `ConfigurationError` the specification prescribes for invalid
`beam_width`/`max_steps` (the source contains no code path producing
it). -/
inductive GenError where
  | indexError
  | configError
deriving DecidableEq

deriving instance DecidableEq for Except

/-- `generate_caption` up to detokenization: run the loop from the initial
state, sort the completed beams by score descending (stable, line 82) and
take the first one's token sequence (line 84).  `Except.error .indexError`
models the `IndexError` that `completed[0]` raises when no beam ever
completed.  `max_seq_len` and `beam_size` are `Int` as in Python;
`range(n)` is empty for `n ≤ 0`, which `Int.toNat` reproduces. -/
def generate_caption_tokens (M : List Nat → List ℚ) (bos eos : Nat)
    (max_seq_len beam_size : Int) : Except GenError (List Nat) :=
  match sortDescBy Beam.score
      (runLoop M eos max_seq_len.toNat (initState bos beam_size)).1.completed with
  | [] => .error .indexError
  | b :: _ => .ok b.tokens

/-- The full `generate_caption`: decode the chosen token sequence with the
tokenizer (line 86), abstracted as `decode`. -/
def generate_caption (M : List Nat → List ℚ) (decode : List Nat → String)
    (bos eos : Nat) (max_seq_len beam_size : Int) : Except GenError String :=
  (generate_caption_tokens M bos eos max_seq_len beam_size).map decode

/-- The index of the maximum entry of a distribution (lowest index on
ties) — what `pred.topk(1)` selects. -/
def argmaxIdx (p : List ℚ) : Nat :=
  match topk p 1 with
  | [] => 0
  | iv :: _ => iv.1

/-- Modelled from the spec: greedy decoding as §8 words it — "starting
from the begin token and at each step appending the single
highest-probability next token until the end token appears or `max_steps`
steps have run".  Used only to compare `generate_caption` at
`beam_width = 1` against it. -/
def greedyDecode (M : List Nat → List ℚ) (eos : Nat) :
    Nat → List Nat → List Nat
  | 0, ts => ts
  | n + 1, ts =>
    let t := argmaxIdx (M ts)
    if t = eos then ts ++ [t] else greedyDecode M eos n (ts ++ [t])

/-- A stub model over a 4-token vocabulary (bos = 0, eos = 3) whose
distribution always ranks the end token last, so with `beam_size ≤ 3` no
beam ever completes. -/
def Mnoeos : List Nat → List ℚ := fun _ => [2/5, 3/10, 1/5, 1/10]

/-- A stub model over a 4-token vocabulary (bos = 0, eos = 1) that makes
the two highest-scoring candidates of the second step both end in the end
token. -/
def Mskip : List Nat → List ℚ := fun ts =>
  if ts = [0] then [3/20, 1/10, 2/5, 7/20] else [1/40, 9/10, 1/40, 1/20]

/-- A stub model over a 4-token vocabulary (bos = 0, eos = 3) whose
distribution always ranks the end token first, so beams complete
quickly. -/
def Meos : List Nat → List ℚ := fun _ => [1/10, 1/10, 1/5, 3/5]

/-! ### Lemmas about the stable descending sort -/

theorem insertDesc_perm {α : Type} (f : α → ℚ) (x : α) (l : List α) :
    List.Perm (insertDesc f x l) (x :: l) := by
  induction l with
  | nil => simp [insertDesc]
  | cons y ys ih =>
    simp only [insertDesc]
    split
    · exact List.Perm.refl _
    · exact ((ih.cons y).trans (List.Perm.swap x y ys))

theorem sortDescBy_perm {α : Type} (f : α → ℚ) (l : List α) :
    List.Perm (sortDescBy f l) l := by
  induction l with
  | nil => exact List.Perm.refl _
  | cons x xs ih =>
    exact (insertDesc_perm f x (sortDescBy f xs)).trans (ih.cons x)

theorem mem_insertDesc {α : Type} {f : α → ℚ} {x z : α} {l : List α} :
    z ∈ insertDesc f x l ↔ z = x ∨ z ∈ l := by
  rw [(insertDesc_perm f x l).mem_iff, List.mem_cons]

theorem mem_sortDescBy {α : Type} {f : α → ℚ} {z : α} {l : List α} :
    z ∈ sortDescBy f l ↔ z ∈ l :=
  (sortDescBy_perm f l).mem_iff

theorem insertDesc_pairwise {α : Type} (f : α → ℚ) (x : α) {l : List α}
    (h : l.Pairwise (fun a b => f b ≤ f a)) :
    (insertDesc f x l).Pairwise (fun a b => f b ≤ f a) := by
  induction l with
  | nil => simp [insertDesc]
  | cons y ys ih =>
    rcases List.pairwise_cons.mp h with ⟨hy, hys⟩
    simp only [insertDesc]
    split
    · rename_i hle
      refine List.pairwise_cons.mpr ⟨?_, h⟩
      intro z hz
      rcases List.mem_cons.mp hz with rfl | hz
      · exact hle
      · exact (hy z hz).trans hle
    · rename_i hgt
      refine List.pairwise_cons.mpr ⟨?_, ih hys⟩
      intro z hz
      rcases mem_insertDesc.mp hz with rfl | hz
      · exact le_of_lt (lt_of_not_le hgt)
      · exact hy z hz

theorem sortDescBy_pairwise {α : Type} (f : α → ℚ) (l : List α) :
    (sortDescBy f l).Pairwise (fun a b => f b ≤ f a) := by
  induction l with
  | nil => simp [sortDescBy]
  | cons x xs ih => exact insertDesc_pairwise f x ih

theorem insertDesc_filter_key {α : Type} (f : α → ℚ) (q : ℚ) (x : α)
    (l : List α) :
    (insertDesc f x l).filter (fun a => decide (f a = q)) =
      if f x = q then x :: l.filter (fun a => decide (f a = q))
      else l.filter (fun a => decide (f a = q)) := by
  induction l with
  | nil =>
    by_cases hx : f x = q <;> simp [insertDesc, List.filter, hx]
  | cons y ys ih =>
    simp only [insertDesc]
    split
    · rename_i hle
      by_cases hx : f x = q <;> simp [List.filter_cons, hx]
    · rename_i hgt
      by_cases hx : f x = q
      · have hy : ¬ f y = q := by
          intro hyq
          exact hgt (le_of_eq (hx ▸ hyq))
        simp [List.filter_cons, hx, hy, ih]
      · by_cases hy : f y = q <;> simp [List.filter_cons, hx, hy, ih]

/-- Stability of the sort: for each key value, the elements carrying that
key appear in the sorted output in exactly their original order (the
filter by that key is unchanged).  This is the formal content of "ties
broken by original generation order". -/
theorem sortDescBy_stable {α : Type} (f : α → ℚ) (q : ℚ) (l : List α) :
    (sortDescBy f l).filter (fun a => decide (f a = q)) =
      l.filter (fun a => decide (f a = q)) := by
  induction l with
  | nil => rfl
  | cons x xs ih =>
    simp only [sortDescBy]
    rw [insertDesc_filter_key]
    by_cases hx : f x = q <;> simp [List.filter_cons, hx, ih]

theorem sortDescBy_take_dominates {α : Type} (f : α → ℚ) (l : List α)
    (k : Nat) :
    ∀ a ∈ (sortDescBy f l).take k, ∀ b ∈ (sortDescBy f l).drop k, f b ≤ f a := by
  have hs : ((sortDescBy f l).take k ++ (sortDescBy f l).drop k).Pairwise
      (fun a b => f b ≤ f a) := by
    rw [List.take_append_drop]
    exact sortDescBy_pairwise f l
  exact (List.pairwise_append.mp hs).2.2

/-! ### Lemmas about the harvest pass -/

theorem pyRemove_sublist (x : Beam) (l : List Beam) :
    List.Sublist (pyRemove x l) l := by
  induction l with
  | nil => simp [pyRemove]
  | cons y ys ih =>
    simp only [pyRemove]
    split
    · exact List.sublist_cons_self y ys
    · exact ih.cons₂ y

theorem harvestAux_beams_sublist (eos : Nat) :
    ∀ (fuel i : Nat) (beams completed : List Beam) (cap : Int),
      List.Sublist (harvestAux eos fuel i beams completed cap).1 beams := by
  intro fuel
  induction fuel with
  | zero => intro i beams completed cap; exact List.Sublist.refl _
  | succ fuel ih =>
    intro i beams completed cap
    simp only [harvestAux]
    split
    · rename_i h
      split
      · exact (ih _ _ _ _).trans (pyRemove_sublist _ _)
      · exact ih _ _ _ _
    · exact List.Sublist.refl _

theorem harvestAux_completed_mem (eos : Nat) :
    ∀ (fuel i : Nat) (beams completed : List Beam) (cap : Int) (b : Beam),
      b ∈ (harvestAux eos fuel i beams completed cap).2.1 →
        b ∈ completed ∨ b ∈ beams := by
  intro fuel
  induction fuel with
  | zero => intro i beams completed cap b hb; exact Or.inl hb
  | succ fuel ih =>
    intro i beams completed cap b hb
    simp only [harvestAux] at hb
    split at hb
    · rename_i h
      split at hb
      · rcases ih _ _ _ _ _ hb with hc | hr
        · rcases List.mem_append.mp hc with hc | hc
          · exact Or.inl hc
          · rcases List.mem_singleton.mp hc with rfl
            exact Or.inr (List.get_mem beams i _)
        · exact Or.inr ((pyRemove_sublist _ _).mem hr)
      · exact ih _ _ _ _ _ hb
    · exact Or.inl hb

/-! ### Lemmas about `topk` and expansion -/

theorem topk_mem_getElem? (p : List ℚ) (k : Nat) :
    ∀ iv ∈ topk p k, p[iv.1]? = some iv.2 := by
  intro iv hiv
  have h1 : iv ∈ sortDescBy Prod.snd p.enum := List.take_subset k _ hiv
  have h2 : iv ∈ p.enum := mem_sortDescBy.mp h1
  exact List.mem_enum_iff_getElem?.mp h2

theorem topk_length_le (p : List ℚ) (k : Nat) : (topk p k).length ≤ k := by
  simp only [topk]
  exact List.length_take_le k (sortDescBy Prod.snd p.enum)

/-- The values selected by `topk` dominate the values left behind: the
selected values, together with some remainder, are a permutation of the
whole distribution, and every remainder value is at most every selected
value. -/
theorem topk_selects_largest (p : List ℚ) (k : Nat) :
    ∃ rest, List.Perm ((topk p k).map Prod.snd ++ rest) p ∧
      ∀ v ∈ (topk p k).map Prod.snd, ∀ w ∈ rest, w ≤ v := by
  refine ⟨((sortDescBy Prod.snd p.enum).drop k).map Prod.snd, ?_, ?_⟩
  · simp only [topk]
    rw [← List.map_append, List.take_append_drop]
    have := (sortDescBy_perm Prod.snd p.enum).map Prod.snd
    rwa [List.enum_map_snd] at this
  · intro v hv w hw
    rcases List.mem_map.mp hv with ⟨a, ha, rfl⟩
    rcases List.mem_map.mp hw with ⟨b, hb, rfl⟩
    exact sortDescBy_take_dominates Prod.snd p.enum k a ha b hb

theorem mem_candidates {M : List Nat → List ℚ} {k : Nat} {beams : List Beam}
    {c : Beam} (hc : c ∈ candidates M k beams) :
    ∃ p ∈ beams, ∃ iv ∈ topk (M p.tokens) k,
      c = ⟨p.tokens ++ [iv.1], p.score + iv.2⟩ := by
  rcases List.mem_flatMap.mp hc with ⟨p, hp, hcp⟩
  rcases List.mem_map.mp hcp with ⟨iv, hiv, rfl⟩
  exact ⟨p, hp, iv, hiv, rfl⟩

/-- Every beam of the pruned-and-harvested state of one step descends
from some beam of the previous active list by appending one token. -/
theorem runStep_beams_mem {M : List Nat → List ℚ} {eos : Nat} {s : StepState}
    {b : Beam} (hb : b ∈ (runStep M eos s).beams) :
    ∃ p ∈ s.beams, ∃ iv ∈ topk (M p.tokens) s.beam_size.toNat,
      b = ⟨p.tokens ++ [iv.1], p.score + iv.2⟩ := by
  have h1 : b ∈ pruneActive s.beam_size.toNat
      (candidates M s.beam_size.toNat s.beams) :=
    (harvestAux_beams_sublist _ _ _ _ _ _).mem hb
  have h2 : b ∈ sortDescBy Beam.score (candidates M s.beam_size.toNat s.beams) :=
    List.take_subset _ _ h1
  exact mem_candidates (mem_sortDescBy.mp h2)

/-- Every completed beam after one step either was completed before or
descends from some previously active beam by appending one token. -/
theorem runStep_completed_mem {M : List Nat → List ℚ} {eos : Nat}
    {s : StepState} {b : Beam} (hb : b ∈ (runStep M eos s).completed) :
    b ∈ s.completed ∨
      ∃ p ∈ s.beams, ∃ iv ∈ topk (M p.tokens) s.beam_size.toNat,
        b = ⟨p.tokens ++ [iv.1], p.score + iv.2⟩ := by
  rcases harvestAux_completed_mem _ _ _ _ _ _ _ hb with hc | hr
  · exact Or.inl hc
  · have h2 : b ∈ sortDescBy Beam.score (candidates M s.beam_size.toNat s.beams) :=
      List.take_subset _ _ hr
    exact Or.inr (mem_candidates (mem_sortDescBy.mp h2))

/-! ### The loop: executed steps and termination -/

/-- `runLoop` executes `runStep` some number `c` of times: its final
state is the `c`-th iterate of the step function, `c` never exceeds the
fuel, the loop stops early only because `beam_size` reached zero, and it
never continues past a state with `beam_size = 0` (the break check sits at
the bottom of the loop body, so it looks only at states after at least one
step). -/
theorem runLoop_spec (M : List Nat → List ℚ) (eos : Nat) :
    ∀ (n : Nat) (s : StepState),
      (runLoop M eos n s).1 = (runStep M eos)^[(runLoop M eos n s).2] s ∧
      (runLoop M eos n s).2 ≤ n ∧
      (0 < n → 0 < (runLoop M eos n s).2) ∧
      ((runLoop M eos n s).2 < n →
        ((runStep M eos)^[(runLoop M eos n s).2] s).beam_size = 0) ∧
      (∀ t, 0 < t → t < (runLoop M eos n s).2 →
        ((runStep M eos)^[t] s).beam_size ≠ 0) := by
  intro n
  induction n with
  | zero =>
    intro s
    exact ⟨rfl, le_refl _, fun h => h, fun h => absurd h (Nat.lt_irrefl 0),
      fun t ht1 ht2 => absurd ht2 (Nat.not_lt_zero t)⟩
  | succ n ih =>
    intro s
    simp only [runLoop]
    split
    · rename_i hz
      refine ⟨?_, ?_, ?_, ?_, ?_⟩
      · simp [Function.iterate_one]
      · omega
      · intro _; omega
      · intro _
        simpa [Function.iterate_one] using hz
      · intro t ht1 ht2
        omega
    · rename_i hz
      rcases ih (runStep M eos s) with ⟨h1, h2, _, h4, h5⟩
      refine ⟨?_, ?_, ?_, ?_, ?_⟩
      · simp only
        rw [h1, ← Function.iterate_succ_apply]
      · simp only
        omega
      · intro _
        simp only
        omega
      · intro hlt
        simp only at hlt ⊢
        rw [Function.iterate_succ_apply]
        exact h4 (by omega)
      · intro t ht1 ht2
        simp only at ht2
        rcases Nat.exists_eq_succ_of_ne_zero (Nat.pos_iff_ne_zero.mp ht1) with
          ⟨u, rfl⟩
        rw [Function.iterate_succ_apply]
        rcases Nat.eq_zero_or_pos u with rfl | hu
        · simpa [Function.iterate_zero] using hz
        · exact h5 u hu (by omega)

/-! ### Shape invariants of the iterated step -/

/-- After `t` steps every active beam starts with the begin token and
holds exactly `t + 1` tokens. -/
theorem iterate_beams_shape (M : List Nat → List ℚ) (eos bos : Nat)
    (w : Int) :
    ∀ (t : Nat) (b : Beam),
      b ∈ ((runStep M eos)^[t] (initState bos w)).beams →
        b.tokens.head? = some bos ∧ b.tokens.length = t + 1 := by
  intro t
  induction t with
  | zero =>
    intro b hb
    rcases List.mem_singleton.mp hb with rfl
    exact ⟨rfl, rfl⟩
  | succ t ih =>
    intro b hb
    rw [Function.iterate_succ_apply'] at hb
    rcases runStep_beams_mem hb with ⟨p, hp, iv, _, rfl⟩
    rcases ih p hp with ⟨hhead, hlen⟩
    constructor
    · rw [List.head?_append]
      simp [hhead]
    · simp only [List.length_append, List.length_singleton, hlen]

/-- After `t` steps every completed beam holds at most `t + 1` tokens and
starts with the begin token. -/
theorem iterate_completed_shape (M : List Nat → List ℚ) (eos bos : Nat)
    (w : Int) :
    ∀ (t : Nat) (b : Beam),
      b ∈ ((runStep M eos)^[t] (initState bos w)).completed →
        b.tokens.head? = some bos ∧ b.tokens.length ≤ t + 1 := by
  intro t
  induction t with
  | zero =>
    intro b hb
    simp [initState] at hb
  | succ t ih =>
    intro b hb
    rw [Function.iterate_succ_apply'] at hb
    rcases runStep_completed_mem hb with hold | ⟨p, hp, iv, _, rfl⟩
    · rcases ih b hold with ⟨h1, h2⟩
      exact ⟨h1, h2.trans (by omega)⟩
    · rcases iterate_beams_shape M eos bos w t p hp with ⟨hhead, hlen⟩
      constructor
      · rw [List.head?_append]
        simp [hhead]
      · simp only [List.length_append, List.length_singleton, hlen]
        omega

/-! ### The loop at beam width 1 computes the greedy sequence -/

theorem runStep_nil_beams (M : List Nat → List ℚ) (eos : Nat)
    (comp : List Beam) (c : Int) :
    runStep M eos ⟨[], comp, c⟩ = ⟨[], comp, c⟩ := by
  simp [runStep, candidates, pruneActive, sortDescBy, harvestLoop, harvestAux,
    List.take_nil]

theorem runLoop_nil_beams (M : List Nat → List ℚ) (eos : Nat) :
    ∀ (n : Nat) (comp : List Beam) (c : Int),
      (runLoop M eos n ⟨[], comp, c⟩).1 = ⟨[], comp, c⟩ := by
  intro n
  induction n with
  | zero => intro comp c; rfl
  | succ n ih =>
    intro comp c
    simp only [runLoop, runStep_nil_beams]
    split
    · rfl
    · exact ih comp c

theorem topk_one_of_ne_nil {p : List ℚ} (hp : topk p 1 ≠ []) :
    ∃ iv, topk p 1 = [iv] ∧ iv.1 = argmaxIdx p := by
  rcases h : topk p 1 with _ | ⟨iv, tl⟩
  · exact absurd h hp
  · have hlen := topk_length_le p 1
    rw [h] at hlen
    simp only [List.length_cons] at hlen
    have : tl = [] := List.length_eq_zero.mp (by omega)
    subst this
    refine ⟨iv, rfl, ?_⟩
    simp [argmaxIdx, h]

theorem runStep_singleton_nil (M : List Nat → List ℚ) (eos : Nat)
    (ts : List Nat) (q : ℚ) (htk : topk (M ts) 1 = []) :
    runStep M eos ⟨[⟨ts, q⟩], [], 1⟩ = ⟨[], [], 1⟩ := by
  simp [runStep, candidates, pruneActive, expandBeam, htk, sortDescBy,
    harvestLoop, harvestAux, List.take_nil]

theorem runStep_singleton (M : List Nat → List ℚ) (eos : Nat) (ts : List Nat)
    (q : ℚ) (iv : Nat × ℚ) (htk : topk (M ts) 1 = [iv]) :
    runStep M eos ⟨[⟨ts, q⟩], [], 1⟩ =
      if iv.1 = eos then ⟨[], [⟨ts ++ [iv.1], q + iv.2⟩], 0⟩
      else ⟨[⟨ts ++ [iv.1], q + iv.2⟩], [], 1⟩ := by
  by_cases hv : iv.1 = eos <;>
    simp [runStep, candidates, pruneActive, expandBeam, htk, sortDescBy,
      insertDesc, harvestLoop, harvestAux, List.getLast?_append, pyRemove, hv]

theorem runLoop_beam1 (M : List Nat → List ℚ) (eos : Nat) :
    ∀ (n : Nat) (ts : List Nat) (q : ℚ),
      (runLoop M eos n ⟨[⟨ts, q⟩], [], 1⟩).1.completed = [] ∨
      ∃ sc, (runLoop M eos n ⟨[⟨ts, q⟩], [], 1⟩).1.completed =
        [⟨greedyDecode M eos n ts, sc⟩] := by
  intro n
  induction n with
  | zero => intro ts q; exact Or.inl rfl
  | succ n ih =>
    intro ts q
    by_cases hnil : topk (M ts) 1 = []
    · have hstep := runStep_singleton_nil M eos ts q hnil
      simp only [runLoop, hstep]
      have h1 : ¬ ((1 : Int) = 0) := by decide
      simp only [h1, if_false]
      exact Or.inl (by rw [runLoop_nil_beams])
    · rcases topk_one_of_ne_nil hnil with ⟨iv, htk, hargmax⟩
      have hstep := runStep_singleton M eos ts q iv htk
      by_cases hv : iv.1 = eos
      · rw [if_pos hv] at hstep
        simp only [runLoop, hstep]
        have h0 : ((0 : Int) = 0) := rfl
        simp only [h0, if_true]
        refine Or.inr ⟨q + iv.2, ?_⟩
        simp only [greedyDecode]
        rw [← hargmax, hv]
        simp
      · rw [if_neg hv] at hstep
        simp only [runLoop, hstep]
        have h1 : ¬ ((1 : Int) = 0) := by decide
        simp only [h1, if_false]
        have hg : greedyDecode M eos (n + 1) ts =
            greedyDecode M eos n (ts ++ [iv.1]) := by
          simp only [greedyDecode]
          rw [← hargmax]
          simp [hv]
        rw [hg]
        exact ih (ts ++ [iv.1]) (q + iv.2)

/-- Reading off the selection of `generate_caption`: a returned token
sequence is the token sequence of some completed beam. -/
theorem generate_caption_tokens_ok {M : List Nat → List ℚ} {bos eos : Nat}
    {n k : Int} {ts : List Nat}
    (h : generate_caption_tokens M bos eos n k = .ok ts) :
    ∃ b, b ∈ (runLoop M eos n.toNat (initState bos k)).1.completed ∧
      b.tokens = ts := by
  unfold generate_caption_tokens at h
  split at h
  · exact absurd h (by simp)
  · rename_i b rest heq
    refine ⟨b, ?_, ?_⟩
    · exact mem_sortDescBy.mp (by rw [heq]; exact List.mem_cons_self b rest)
    · exact (Except.ok.injEq _ _).mp h

/-! ### Claim theorems -/

/-- Claim C1 (the code at the failing input): with a model that never
ranks the end token inside the expansion width, `max_steps = 5` and
`beam_width = 3` — the spec's own fallback scenario — `generate_caption`
does not fall back to the best active beam: the completed list is empty at
termination, three active beams are available, and the call surfaces the
`IndexError` of `completed[0]` instead of a caption. -/
theorem generate_caption_empty_completion_crash :
    generate_caption Mnoeos (fun _ => "caption") 0 3 5 3 =
      .error .indexError ∧
    (runLoop Mnoeos 3 5 (initState 0 3)).1.completed = [] ∧
    (runLoop Mnoeos 3 5 (initState 0 3)).1.beams.length = 3 := by
  refine ⟨?_, ?_, ?_⟩ <;> with_unfolding_all decide

/-- Claim C2 (the code at the failing input): a run of the engine in which
the two top-scoring candidates of step 2 both end in the end token
(`eos = 1`).  The harvest pass removes only the first of them — Python's
remove-while-iterating skips the element shifted into the freed slot — so
after the harvest the active list still contains a beam whose last token
is the end token, and only one beam was moved to the completed list. -/
theorem harvest_leaves_eos_beam_active :
    ((runStep Mskip 1)^[2] (initState 0 2)).beams = [⟨[0, 3, 1], 5/4⟩] ∧
    (Beam.mk [0, 3, 1] (5/4)).tokens.getLast? = some 1 ∧
    ((runStep Mskip 1)^[2] (initState 0 2)).completed =
      [⟨[0, 2, 1], 13/10⟩] := by
  refine ⟨?_, ?_, ?_⟩ <;> with_unfolding_all decide

/-- Claim C3 (the code at the failing input): `generate_caption` performs
no configuration validation.  With `max_steps = 0 < 1` the loop body never
runs and the call fails with the `IndexError` of the final selection, and
with `beam_width = 0 < 1` it likewise ends in the `IndexError`; in neither
case is a `ConfigurationError` raised before the loop. -/
theorem no_configuration_validation :
    generate_caption_tokens Mnoeos 0 3 0 3 = .error .indexError ∧
    generate_caption_tokens Mnoeos 0 3 5 0 = .error .indexError := by
  constructor <;> with_unfolding_all decide

/-- Claim C4: at every expansion step each active beam is expanded with
the top-`capacity` tokens of its next-token distribution, where the width
is the state's *current* `beam_size`; `topk` really selects a dominating
subset of the distribution; the candidate list is stably sorted by score
descending and truncated to the top `capacity` entries, which the step
function feeds (as the new active list) into the harvest. -/
theorem expansion_width_is_current_capacity
    (M : List Nat → List ℚ) (k : Nat) (beams : List Beam) :
    (∀ b ∈ beams, expandBeam M k b = (topk (M b.tokens) k).map
      (fun iv => ⟨b.tokens ++ [iv.1], b.score + iv.2⟩)) ∧
    (∀ p : List ℚ, ∃ rest, List.Perm ((topk p k).map Prod.snd ++ rest) p ∧
      ∀ v ∈ (topk p k).map Prod.snd, ∀ w ∈ rest, w ≤ v) ∧
    (∃ rest, List.Perm (pruneActive k (candidates M k beams) ++ rest)
        (candidates M k beams) ∧
      ∀ a ∈ pruneActive k (candidates M k beams), ∀ b ∈ rest,
        b.score ≤ a.score) ∧
    (pruneActive k (candidates M k beams)).Pairwise
      (fun a b => b.score ≤ a.score) ∧
    (pruneActive k (candidates M k beams)).length ≤ k ∧
    (∀ (eos : Nat) (s : StepState), (runStep M eos s).beams =
      (harvestLoop eos (pruneActive s.beam_size.toNat
        (candidates M s.beam_size.toNat s.beams)) s.completed s.beam_size).1) := by
  refine ⟨fun b _ => rfl, fun p => topk_selects_largest p k, ?_, ?_, ?_,
    fun eos s => rfl⟩
  · refine ⟨(sortDescBy Beam.score (candidates M k beams)).drop k, ?_, ?_⟩
    · simp only [pruneActive]
      rw [List.take_append_drop]
      exact sortDescBy_perm _ _
    · exact sortDescBy_take_dominates Beam.score (candidates M k beams) k
  · exact (sortDescBy_pairwise Beam.score (candidates M k beams)).sublist
      (List.take_sublist k _)
  · exact List.length_take_le k _

/-- Witness for C4 at a concrete input: the expansion equation at the
initial beam of the `Mskip` run. -/
theorem expansion_width_witness :
    expandBeam Mskip 2 ⟨[0], 0⟩ = (topk (Mskip [0]) 2).map
      (fun iv => ⟨[0] ++ [iv.1], 0 + iv.2⟩) :=
  (expansion_width_is_current_capacity Mskip 2 [⟨[0], 0⟩]).1 ⟨[0], 0⟩
    (List.mem_singleton.mpr rfl)

/-- Claim C5: every child produced by expanding a beam carries the
parent's tokens with the chosen token appended, and the parent's score
plus that token's raw probability — the value stored at the token's index
in the model's output distribution, not its logarithm. -/
theorem child_score_is_parent_plus_probability
    (M : List Nat → List ℚ) (k : Nat) (b c : Beam)
    (hc : c ∈ expandBeam M k b) :
    ∃ iv ∈ topk (M b.tokens) k, c.tokens = b.tokens ++ [iv.1] ∧
      c.score = b.score + iv.2 ∧ (M b.tokens)[iv.1]? = some iv.2 := by
  rcases List.mem_map.mp hc with ⟨iv, hiv, rfl⟩
  exact ⟨iv, hiv, rfl, rfl, topk_mem_getElem? _ _ iv hiv⟩

/-- Witness for C5 at a concrete input: the first child of the initial
beam under `Mnoeos`. -/
theorem child_score_witness :
    ∃ iv ∈ topk (Mnoeos [0]) 3,
      (Beam.mk [0, 0] (2/5)).tokens = [0] ++ [iv.1] ∧
      (Beam.mk [0, 0] (2/5)).score = 0 + iv.2 ∧
      (Mnoeos [0])[iv.1]? = some iv.2 :=
  child_score_is_parent_plus_probability Mnoeos 3 ⟨[0], 0⟩ ⟨[0, 0], 2/5⟩
    (by with_unfolding_all decide)

/-- Claim C6: every run terminates (the loop is a total function of its
fuel) and it stops at the first of the two conditions: the final state is
the `c`-th iterate of the step function where `c` never exceeds
`max_steps`, stopping before `max_steps` happens exactly with
`beam_size = 0` after the harvest of step `c`, and no earlier post-step
state had `beam_size = 0` — so no expansion step runs after either
condition holds. -/
theorem generation_terminates_at_first_condition
    (M : List Nat → List ℚ) (eos : Nat) (n : Nat) (s : StepState) :
    (runLoop M eos n s).1 = (runStep M eos)^[(runLoop M eos n s).2] s ∧
    (runLoop M eos n s).2 ≤ n ∧
    (0 < n → 0 < (runLoop M eos n s).2) ∧
    ((runLoop M eos n s).2 < n →
      ((runStep M eos)^[(runLoop M eos n s).2] s).beam_size = 0) ∧
    (∀ t, 0 < t → t < (runLoop M eos n s).2 →
      ((runStep M eos)^[t] s).beam_size ≠ 0) :=
  runLoop_spec M eos n s

/-- Witness for C6 at a concrete input: the `Meos` run stops after step 3
of the 5 allowed, with `beam_size = 0` exactly there and not at step 2. -/
theorem termination_witness :
    (runLoop Meos 3 5 (initState 0 3)).2 = 3 ∧
    ((runStep Meos 3)^[(runLoop Meos 3 5 (initState 0 3)).2]
      (initState 0 3)).beam_size = 0 ∧
    ((runStep Meos 3)^[2] (initState 0 3)).beam_size ≠ 0 := by
  refine ⟨by with_unfolding_all decide, ?_, ?_⟩
  · exact (generation_terminates_at_first_condition Meos 3 5
      (initState 0 3)).2.2.2.1 (by with_unfolding_all decide)
  · exact (generation_terminates_at_first_condition Meos 3 5
      (initState 0 3)).2.2.2.2 2 (by decide) (by with_unfolding_all decide)

/-- Claim C7: `generate_caption` is a pure function of the model, the
tokenizer and the configuration — extensionally equal models give
identical output — and both sorts (candidate pruning and final
completed-list selection) are the same stable descending sort, whose
equal-score elements keep their original (generation) order. -/
theorem generate_caption_deterministic
    (M1 M2 : List Nat → List ℚ) (decode : List Nat → String) (bos eos : Nat)
    (n k : Int) (h : ∀ ts, M1 ts = M2 ts) :
    generate_caption M1 decode bos eos n k =
      generate_caption M2 decode bos eos n k ∧
    ∀ (l : List Beam) (q : ℚ),
      (sortDescBy Beam.score l).filter (fun b => decide (b.score = q)) =
        l.filter (fun b => decide (b.score = q)) := by
  constructor
  · rw [funext h]
  · intro l q
    exact sortDescBy_stable Beam.score q l

/-- Witness for C7 at a concrete input. -/
theorem determinism_witness :
    generate_caption Mnoeos (fun _ => "a") 0 3 5 3 =
      generate_caption Mnoeos (fun _ => "a") 0 3 5 3 :=
  (generate_caption_deterministic Mnoeos Mnoeos (fun _ => "a") 0 3 5 3
    (fun _ => rfl)).1

/-- Claim C8 as stated is false on the code: with a model that never
emits the end token, `beam_width = 1` and `max_steps = 2`, greedy decoding
produces a sequence but `generate_caption` chooses nothing — it fails with
the empty-completed-list `IndexError`. -/
theorem beam_width_one_claim_counterexample :
    ¬ (generate_caption_tokens Mnoeos 0 3 2 1 =
        .ok (greedyDecode Mnoeos 3 (Int.toNat 2) [0])) := by
  with_unfolding_all decide

/-- Claim C8, amended: whenever `generate_caption` with `beam_width = 1`
returns a caption, its token sequence is exactly the greedy sequence —
start from the begin token and repeatedly append the single
highest-probability next token until the end token appears or `max_steps`
steps have run. -/
theorem beam_width_one_is_greedy
    (M : List Nat → List ℚ) (bos eos : Nat) (n : Int) (ts : List Nat)
    (h : generate_caption_tokens M bos eos n 1 = .ok ts) :
    ts = greedyDecode M eos n.toNat [bos] := by
  rcases runLoop_beam1 M eos n.toNat [bos] 0 with hc | ⟨sc, hc⟩
  · rcases generate_caption_tokens_ok h with ⟨b, hb, _⟩
    rw [show initState bos (1 : Int) = ⟨[⟨[bos], 0⟩], [], 1⟩ from rfl, hc] at hb
    exact absurd hb (List.not_mem_nil b)
  · rcases generate_caption_tokens_ok h with ⟨b, hb, hts⟩
    rw [show initState bos (1 : Int) = ⟨[⟨[bos], 0⟩], [], 1⟩ from rfl, hc] at hb
    rcases List.mem_singleton.mp hb with rfl
    exact hts.symm

/-- Witness for the amended C8 at a concrete input: under `Meos` the
beam-width-1 run returns exactly the greedy sequence. -/
theorem beam_width_one_witness :
    ([0, 3] : List Nat) = greedyDecode Meos 3 (Int.toNat 5) [0] :=
  beam_width_one_is_greedy Meos 0 3 5 [0, 3] (by with_unfolding_all decide)

/-- Claim C9: any returned caption's token count, excluding the begin
token, is at most `max_steps`: each loop iteration appends one token to
each surviving beam and at most `max_steps` iterations run, so a completed
beam holds at most `max_steps + 1` tokens including the begin token. -/
theorem output_length_bounded
    (M : List Nat → List ℚ) (bos eos : Nat) (n k : Int) (ts : List Nat)
    (h : generate_caption_tokens M bos eos n k = .ok ts) :
    ts.length - 1 ≤ n.toNat ∧ ts.length ≤ n.toNat + 1 := by
  rcases generate_caption_tokens_ok h with ⟨b, hb, rfl⟩
  rcases runLoop_spec M eos n.toNat (initState bos k) with ⟨h1, h2, _, _, _⟩
  rw [h1] at hb
  rcases iterate_completed_shape M eos bos k _ b hb with ⟨_, hlen⟩
  constructor <;> omega

/-- Witness for C9 at a concrete input. -/
theorem output_length_witness :
    ([0, 0, 3, 3] : List Nat).length - 1 ≤ (5 : Int).toNat ∧
    ([0, 0, 3, 3] : List Nat).length ≤ (5 : Int).toNat + 1 :=
  output_length_bounded Meos 0 3 5 3 [0, 0, 3, 3]
    (by with_unfolding_all decide)

/-- Claim C10: after `t` completed loop iterations every active beam
begins with the begin-of-sequence token and holds exactly `t + 1` tokens,
so all active beams of a given step have the same length. -/
theorem active_beams_uniform_length
    (M : List Nat → List ℚ) (bos eos : Nat) (w : Int) (t : Nat) (b : Beam)
    (hb : b ∈ ((runStep M eos)^[t] (initState bos w)).beams) :
    b.tokens.head? = some bos ∧ b.tokens.length = t + 1 :=
  iterate_beams_shape M eos bos w t b hb

/-- Witness for C10 at a concrete input: the initial beam at step 0. -/
theorem active_beams_witness :
    (Beam.mk [0] 0).tokens.head? = some 0 ∧
    (Beam.mk [0] 0).tokens.length = 0 + 1 :=
  active_beams_uniform_length Mnoeos 0 3 3 0 ⟨[0], 0⟩
    (by simp [initState])
